import Mathlib

/-!
Verification development for the edf-reader crate.

The Rust sources embedded here are `src/lib.rs` (the functions `get_sample`
and `check_bounds`) and `src/async_reader.rs` (the method
`AsyncEDFReader::read_data_window`).  The `model` module (the `EDFHeader`
and `ChannelHeader` structures and `EDFHeader::get_size_of_data_block`) is
not part of the sources; those pieces are modelled from the specification
and are marked as such in their doc comments.

Modelling conventions:
* Rust `u8` is embedded as `Fin 256`, `u64` as `Nat`; where the spec makes
  wrap-around of `u64` arithmetic observable (`check_bounds`), the
  operations are taken modulo `2 ^ 64` explicitly.
* Rust `f32` values (`physical_minimum`, `scale_factor`, and the per-sample
  conversion arithmetic) are embedded as exact rationals `ℚ`.  Every claim
  about those values compares the decoder's computation with the very same
  linear formula, so the claims are insensitive to the rounding model.
* The `f64` ceiling division in `read_data_window` is embedded as exact
  natural ceiling division; the two agree whenever `duration_ms` and
  `block_duration` are below `2 ^ 53` (exactly representable in `f64`),
  and the corresponding theorem carries those bounds as hypotheses.
* `std::io::Error` values are embedded as the inductive `EdfError`, one
  constructor per `ErrorKind` used by the sources, carrying the numeric
  data that the source interpolates into its message string.
-/

/-- Rust `u8`. -/
abbrev U8 := Fin 256

/-- Value of `2 ^ 64`; `u64` arithmetic wraps modulo this. -/
def U64MOD : Nat := 2 ^ 64

/-- Errors produced by the embedded sources, one constructor per
`std::io::ErrorKind` the code constructs.  `unexpectedEof` carries the
sample index, the byte index one past the needed sample bytes, and the
buffer length — the three numbers interpolated into the source's message
string. -/
inductive EdfError where
  | unexpectedEof (index : Nat) (needed : Nat) (len : Nat)
  | invalidData
  | invalidInput
deriving DecidableEq

/-- Little-endian reconstruction of `i16::from_le_bytes([b0, b1])`. -/
def i16FromLeBytes (b0 b1 : U8) : Int :=
  let v : Nat := b0.val + 256 * b1.val
  if v < 32768 then (v : Int) else (v : Int) - 65536

/-- Embedding of `get_sample` from `src/lib.rs`: reads the 2-byte
little-endian sample number `index` from `data`.  The slice
`data[start..end]` becomes `(data.drop start).take 2`; the `try_into`
into `[u8; 2]` succeeds exactly when that slice has two elements, its
error branch becoming `invalidData`. -/
def get_sample (data : List U8) (index : Nat) : Except EdfError Int :=
  let start := 2 * index
  let e := start + 2
  if e > data.length then
    .error (.unexpectedEof index e data.length)
  else
    match (data.drop start).take 2 with
    | [b0, b1] => .ok (i16FromLeBytes b0 b1)
    | _ => .error .invalidData

/-- Per-channel header fields used by `read_data_window`.  Modelled from the
spec: the `ChannelHeader` structure lives in the missing `model` module;
§3 of the spec lists its computational fields.  `digital_minimum` is an
integer (16-bit range on valid files); `physical_minimum` and the derived
`scale_factor` are `f32` in the source, embedded as exact rationals. -/
structure ChannelHeader where
  number_of_samples_in_data_record : Nat
  digital_minimum : Int
  physical_minimum : ℚ
  scale_factor : ℚ
deriving DecidableEq

/-- Header fields used by `read_data_window` and `check_bounds`.  Modelled
from the spec: the `EDFHeader` structure lives in the missing `model`
module; §3 of the spec lists these fields (`u64` quantities embedded as
`Nat`). -/
structure EDFHeader where
  byte_size_header : Nat
  number_of_blocks : Nat
  block_duration : Nat
  number_of_signals : Nat
  channels : List ChannelHeader

/-- Sum of the per-channel sample counts of a channel list. -/
def sumCounts : List ChannelHeader → Nat
  | [] => 0
  | ch :: rest => ch.number_of_samples_in_data_record + sumCounts rest

/-- Modelled from the spec: `EDFHeader::get_size_of_data_block` lives in the
missing `model` module; §3 fixes a data record's byte size as
2 × Σ `number_of_samples_in_data_record`. -/
def EDFHeader.get_size_of_data_block (h : EDFHeader) : Nat :=
  2 * sumCounts h.channels

/-- Embedding of `check_bounds` from `src/lib.rs`.  The `u64` sum
`start_time + duration` and product `block_duration * number_of_blocks`
are taken modulo `2 ^ 64`, the wrap-around semantics of the release-mode
`u64` arithmetic the spec discusses. -/
def check_bounds (start_time duration : Nat) (h : EDFHeader) : Except EdfError Unit :=
  if (start_time + duration) % U64MOD > (h.block_duration * h.number_of_blocks) % U64MOD then
    .error .invalidInput
  else
    .ok ()

/-- Per-sample digital→physical conversion from `read_data_window`
(`src/async_reader.rs` lines 90–94):
`(digital_sample - digital_minimum as f32) * scale_factor + physical_minimum`. -/
def physicalValue (ch : ChannelHeader) (s : Int) : ℚ :=
  ((s : ℚ) - (ch.digital_minimum : ℚ)) * ch.scale_factor + ch.physical_minimum

/-- Push of one converted sample onto `result[j]` (`result[j].push(...)` in
the source).  `List.set` is a no-op when `j` is out of range; in the source
that index is always in range because header construction enforces
`number_of_signals == channels.len()`. -/
def pushSample (result : List (List ℚ)) (j : Nat) (v : ℚ) : List (List ℚ) :=
  result.set j ((result.getD j []) ++ [v])

/-- Innermost loop of `read_data_window`: decodes `count` consecutive
samples of channel `j` (header `ch`) starting at running sample index
`index`, pushing each converted sample onto `result[j]`. -/
def decodeChannelLoop (data : List U8) (ch : ChannelHeader) (j : Nat) :
    Nat → Nat → List (List ℚ) → Except EdfError (List (List ℚ) × Nat)
  | 0, index, result => .ok (result, index)
  | c + 1, index, result =>
    match get_sample data index with
    | .error e => .error e
    | .ok s => decodeChannelLoop data ch j c (index + 1) (pushSample result j (physicalValue ch s))

/-- Middle loop of `read_data_window`: iterates over the channels (in header
order, `j` the running enumeration index), decoding each channel's samples
for the current block. -/
def decodeChannelsLoop (data : List U8) :
    List ChannelHeader → Nat → Nat → List (List ℚ) → Except EdfError (List (List ℚ) × Nat)
  | [], _, index, result => .ok (result, index)
  | ch :: rest, j, index, result =>
    match decodeChannelLoop data ch j ch.number_of_samples_in_data_record index result with
    | .error e => .error e
    | .ok (result1, index1) => decodeChannelsLoop data rest (j + 1) index1 result1

/-- Outer loop of `read_data_window`: iterates over the blocks to read. -/
def decodeBlocksLoop (data : List U8) (chs : List ChannelHeader) :
    Nat → Nat → List (List ℚ) → Except EdfError (List (List ℚ) × Nat)
  | 0, index, result => .ok (result, index)
  | b + 1, index, result =>
    match decodeChannelsLoop data chs 0 index result with
    | .error e => .error e
    | .ok (result1, index1) => decodeBlocksLoop data chs b index1 result1

/-- Decoding step of `read_data_window` (the closure over the raw bytes,
`src/async_reader.rs` lines 67–100): the result vector starts as
`number_of_signals` empty vectors, then the three nested loops fill it. -/
def decodeData (data : List U8) (h : EDFHeader) (blocks : Nat) :
    Except EdfError (List (List ℚ)) :=
  match decodeBlocksLoop data h.channels blocks 0 (List.replicate h.number_of_signals []) with
  | .error e => .error e
  | .ok (result, _) => .ok result

/-- Embedding of `first_block_start_time` / `first_block_index`
(`src/async_reader.rs` lines 54–55):
`(start_time_ms - start_time_ms % block_duration) / block_duration`. -/
def firstBlockIndex (start_time_ms bd : Nat) : Nat :=
  (start_time_ms - start_time_ms % bd) / bd

/-- Embedding of `number_of_blocks_to_get` (`src/async_reader.rs` lines
56–57).  The source computes `(duration_ms as f64 / block_duration as f64).ceil()
as u64`; this is embedded as exact natural ceiling division, which agrees
with the `f64` computation whenever both operands are below `2 ^ 53`. -/
def numberOfBlocksToGet (duration_ms bd : Nat) : Nat :=
  (duration_ms + bd - 1) / bd

/-- Byte offset of the read issued by `read_data_window`
(`src/async_reader.rs` lines 58–59). -/
def readOffset (h : EDFHeader) (start_time_ms : Nat) : Nat :=
  h.byte_size_header + firstBlockIndex start_time_ms h.block_duration * h.get_size_of_data_block

/-- Byte length of the read issued by `read_data_window`
(`src/async_reader.rs` line 60). -/
def lengthToRead (h : EDFHeader) (duration_ms : Nat) : Nat :=
  numberOfBlocksToGet duration_ms h.block_duration * h.get_size_of_data_block

/-- Embedding of `AsyncEDFReader::read_data_window`.  The asynchronous byte
source is embedded as a pure oracle mapping (offset, length) to the bytes
it resolves with; within one windowed read the byte read completes before
decoding starts, so this sequencing is faithful. -/
def read_data_window (h : EDFHeader) (readBytes : Nat → Nat → List U8)
    (start_time_ms duration_ms : Nat) : Except EdfError (List (List ℚ)) :=
  match check_bounds start_time_ms duration_ms h with
  | .error e => .error e
  | .ok _ =>
    decodeData (readBytes (readOffset h start_time_ms) (lengthToRead h duration_ms)) h
      (numberOfBlocksToGet duration_ms h.block_duration)

/-! Pure characterizations of the decoding loops, used to state and prove
the claims.  These are specification-side definitions, not part of the
embedded program. -/

/-- Digital sample number `i` of a buffer: the two little-endian bytes at
byte offsets `2*i` and `2*i+1`, as a signed 16-bit integer. -/
def dig (data : List U8) (i : Nat) : Int :=
  i16FromLeBytes (data.getD (2 * i) 0) (data.getD (2 * i + 1) 0)

/-- Converted values of `count` consecutive samples of a channel starting at
sample index `index`. -/
def runVals (data : List U8) (ch : ChannelHeader) : Nat → Nat → List ℚ
  | _, 0 => []
  | index, c + 1 => physicalValue ch (dig data index) :: runVals data ch (index + 1) c

/-- Append a batch of values onto entry `j` of the result vector. -/
def appendAt (result : List (List ℚ)) (j : Nat) (xs : List ℚ) : List (List ℚ) :=
  result.set j ((result.getD j []) ++ xs)

/-- Effect of one block pass over a channel list starting at result slot `j`
and sample index `index`. -/
def multiAppend (data : List U8) : List ChannelHeader → Nat → Nat → List (List ℚ) → List (List ℚ)
  | [], _, _, result => result
  | ch :: rest, j, index, result =>
    multiAppend data rest (j + 1) (index + ch.number_of_samples_in_data_record)
      (appendAt result j (runVals data ch index ch.number_of_samples_in_data_record))

/-- Effect of `blocks` block passes over the channel list. -/
def blocksAppend (data : List U8) (chs : List ChannelHeader) :
    Nat → Nat → List (List ℚ) → List (List ℚ)
  | 0, _, result => result
  | b + 1, index, result =>
    blocksAppend data chs b (index + sumCounts chs) (multiAppend data chs 0 index result)

/-- Sum of the sample counts of the channels before channel `j`. -/
def prefixCounts (chs : List ChannelHeader) (j : Nat) : Nat :=
  sumCounts (chs.take j)

/-- Full contents of one channel across `blocks` consecutive blocks: the
channel's run in each block, runs `stride` samples apart. -/
def chanRun (data : List U8) (ch : ChannelHeader) (stride : Nat) : Nat → Nat → List ℚ
  | _, 0 => []
  | start, b + 1 =>
    runVals data ch start ch.number_of_samples_in_data_record ++
      chanRun data ch stride (start + stride) b

/-- Placeholder channel used as the `List.getD` default when indexing
channel lists; never reached under the stated bounds. -/
def defaultChannel : ChannelHeader := ⟨0, 0, 0, 0⟩

instance {ε α : Type} [DecidableEq ε] [DecidableEq α] : DecidableEq (Except ε α) :=
  fun x y =>
    match x, y with
    | .error e1, .error e2 =>
      if h : e1 = e2 then isTrue (by rw [h]) else isFalse (by simp [h])
    | .ok a1, .ok a2 =>
      if h : a1 = a2 then isTrue (by rw [h]) else isFalse (by simp [h])
    | .error _, .ok _ => isFalse (by simp)
    | .ok _, .error _ => isFalse (by simp)

/-! Concrete fixtures used by witness theorems. -/

/-- One-sample-per-record channel with identity calibration
(`digital_minimum = 0`, `scale_factor = 1`, `physical_minimum = 0`). -/
def chW1 : ChannelHeader := ⟨1, 0, 0, 1⟩

/-- Two-samples-per-record channel with identity calibration. -/
def chW2 : ChannelHeader := ⟨2, 0, 0, 1⟩

/-- Two-channel header with differing per-record sample counts (1 and 2),
10 blocks of 1000 ms each. -/
def hdrW : EDFHeader := ⟨768, 10, 1000, 2, [chW1, chW2]⟩

/-- One data record for `hdrW`: bytes of samples 456 (channel 1) and
−4564, 2 (channel 2). -/
def dataW : List U8 := [200, 1, 44, 238, 2, 0]

/-- Single-channel header whose recording is 1 block of 1 ms, used to
exhibit the `u64` overflow behaviour of `check_bounds`. -/
def hdrO : EDFHeader := ⟨512, 1, 1, 1, [chW1]⟩

/-! Auxiliary list lemmas about `List.getD` and `List.set`. -/

/-- Reading back the entry just written by `List.set`. -/
theorem getD_set_eq {α : Type} (l : List α) (j : Nat) (a d : α) (h : j < l.length) :
    (l.set j a).getD j d = a := by
  induction l generalizing j with
  | nil => simp at h
  | cons x t ih =>
    cases j with
    | zero => rfl
    | succ n =>
      simp only [List.set_cons_succ, List.getD_cons_succ]
      exact ih n (by simpa using h)

/-- Entries other than the written one are unchanged by `List.set`. -/
theorem getD_set_ne {α : Type} (l : List α) (i j : Nat) (a d : α) (h : i ≠ j) :
    (l.set j a).getD i d = l.getD i d := by
  induction l generalizing i j with
  | nil => simp [List.set_nil]
  | cons x t ih =>
    cases j with
    | zero =>
      cases i with
      | zero => exact absurd rfl h
      | succ m => simp [List.set_cons_zero, List.getD_cons_succ]
    | succ n =>
      cases i with
      | zero => simp [List.set_cons_succ, List.getD_cons_zero]
      | succ m =>
        simp only [List.set_cons_succ, List.getD_cons_succ]
        exact ih m n (fun e => h (by rw [e]))

/-- Writing back the value already present is the identity. -/
theorem set_getD_self {α : Type} (l : List α) (j : Nat) (d : α) :
    l.set j (l.getD j d) = l := by
  induction l generalizing j with
  | nil => rfl
  | cons x t ih =>
    cases j with
    | zero => rfl
    | succ n =>
      simp only [List.getD_cons_succ, List.set_cons_succ]
      rw [ih n]

/-! Lemmas about `appendAt`. -/

theorem appendAt_nil (r : List (List ℚ)) (j : Nat) : appendAt r j [] = r := by
  unfold appendAt
  rw [List.append_nil]
  exact set_getD_self r j []

theorem length_appendAt (r : List (List ℚ)) (j : Nat) (xs : List ℚ) :
    (appendAt r j xs).length = r.length :=
  List.length_set r j _

theorem getD_appendAt_self (r : List (List ℚ)) (j : Nat) (xs : List ℚ) (h : j < r.length) :
    (appendAt r j xs).getD j [] = r.getD j [] ++ xs :=
  getD_set_eq r j _ [] h

theorem getD_appendAt_ne (r : List (List ℚ)) (i j : Nat) (xs : List ℚ) (h : i ≠ j) :
    (appendAt r j xs).getD i [] = r.getD i [] :=
  getD_set_ne r i j _ [] h

theorem appendAt_appendAt (r : List (List ℚ)) (j : Nat) (xs ys : List ℚ) :
    appendAt (appendAt r j xs) j ys = appendAt r j (xs ++ ys) := by
  rcases Nat.lt_or_ge j r.length with h | h
  · unfold appendAt
    rw [getD_set_eq r j _ [] h, List.set_set, List.append_assoc]
  · have h1 : appendAt r j xs = r := by
      unfold appendAt
      exact List.set_eq_of_length_le h
    have h2 : appendAt r j ys = r := by
      unfold appendAt
      exact List.set_eq_of_length_le h
    have h3 : appendAt r j (xs ++ ys) = r := by
      unfold appendAt
      exact List.set_eq_of_length_le h
    rw [h1, h2, h3]

theorem pushSample_eq_appendAt (r : List (List ℚ)) (j : Nat) (v : ℚ) :
    pushSample r j v = appendAt r j [v] := rfl

/-! Lemmas about `get_sample`. -/

/-- When the requested two bytes are in bounds, `get_sample` succeeds and
returns the little-endian signed 16-bit value of those bytes. -/
theorem get_sample_of_le (data : List U8) (i : Nat) (h : 2 * i + 2 ≤ data.length) :
    get_sample data i = .ok (dig data i) := by
  unfold get_sample
  rw [if_neg (by omega)]
  have h0 : 2 * i < data.length := by omega
  have h1 : 2 * i + 1 < data.length := by omega
  have hdrop : data.drop (2 * i) =
      data.getD (2 * i) 0 :: data.getD (2 * i + 1) 0 :: data.drop (2 * i + 2) := by
    rw [List.drop_eq_getElem_cons h0, List.drop_eq_getElem_cons (by omega : 2 * i + 1 < data.length)]
    rw [List.getD_eq_getElem data 0 h0, List.getD_eq_getElem data 0 h1]
  rw [hdrop]
  simp [List.take_succ_cons, dig]

/-- When the requested two bytes are not fully in bounds, `get_sample` fails
with the unexpected-end-of-data error carrying the sample index, the byte
index one past the needed bytes, and the buffer length. -/
theorem get_sample_of_gt (data : List U8) (i : Nat) (h : data.length < 2 * i + 2) :
    get_sample data i = .error (.unexpectedEof i (2 * i + 2) data.length) := by
  unfold get_sample
  rw [if_pos (by omega)]

/-! Lemmas about `runVals`. -/

theorem length_runVals (data : List U8) (ch : ChannelHeader) :
    ∀ count index, (runVals data ch index count).length = count := by
  intro count
  induction count with
  | zero => intro index; rfl
  | succ c ih =>
    intro index
    simp only [runVals, List.length_cons, ih]

theorem getD_runVals (data : List U8) (ch : ChannelHeader) :
    ∀ count index k, k < count →
      (runVals data ch index count).getD k 0 = physicalValue ch (dig data (index + k)) := by
  intro count
  induction count with
  | zero => intro index k hk; omega
  | succ c ih =>
    intro index k hk
    cases k with
    | zero => simp [runVals]
    | succ m =>
      simp only [runVals, List.getD_cons_succ]
      rw [ih (index + 1) m (by omega)]
      congr 2
      omega

/-! Characterization of the innermost loop. -/

/-- Success case of the innermost sample loop: with enough bytes, the loop
appends the channel's converted run onto slot `j` and advances the running
sample index by `count`. -/
theorem decodeChannelLoop_ok (data : List U8) (ch : ChannelHeader) (j : Nat) :
    ∀ count index result, 2 * (index + count) ≤ data.length →
      decodeChannelLoop data ch j count index result =
        .ok (appendAt result j (runVals data ch index count), index + count) := by
  intro count
  induction count with
  | zero =>
    intro index result _
    simp only [decodeChannelLoop, runVals, appendAt_nil, Nat.add_zero]
  | succ c ih =>
    intro index result h
    have h2 : 2 * index + 2 ≤ data.length := by omega
    simp only [decodeChannelLoop, get_sample_of_le data index h2]
    rw [ih (index + 1) (pushSample result j (physicalValue ch (dig data index))) (by omega)]
    rw [pushSample_eq_appendAt, appendAt_appendAt]
    have harr : index + 1 + c = index + (c + 1) := by omega
    rw [harr]
    rfl

/-- Failure case of the innermost sample loop: when the buffer ends inside
the requested run, the loop fails at the first sample whose two bytes are
not fully contained, which is sample `data.length / 2`. -/
theorem decodeChannelLoop_err (data : List U8) (ch : ChannelHeader) (j : Nat) :
    ∀ count index result, 2 * index ≤ data.length → data.length < 2 * (index + count) →
      decodeChannelLoop data ch j count index result =
        .error (.unexpectedEof (data.length / 2) (2 * (data.length / 2) + 2) data.length) := by
  intro count
  induction count with
  | zero => intro index result h1 h2; omega
  | succ c ih =>
    intro index result h1 h2
    rcases Nat.lt_or_ge data.length (2 * index + 2) with hlt | hge
    · have hidx : index = data.length / 2 := by omega
      simp only [decodeChannelLoop, get_sample_of_gt data index hlt]
      rw [hidx]
    · simp only [decodeChannelLoop, get_sample_of_le data index hge]
      exact ih (index + 1) _ (by omega) (by omega)

/-! Lemmas about `sumCounts` and `prefixCounts`. -/

theorem sumCounts_cons (ch : ChannelHeader) (rest : List ChannelHeader) :
    sumCounts (ch :: rest) = ch.number_of_samples_in_data_record + sumCounts rest := rfl

theorem prefixCounts_zero (chs : List ChannelHeader) : prefixCounts chs 0 = 0 := rfl

theorem prefixCounts_cons_succ (ch : ChannelHeader) (rest : List ChannelHeader) (k : Nat) :
    prefixCounts (ch :: rest) (k + 1) =
      ch.number_of_samples_in_data_record + prefixCounts rest k := rfl

/-! Characterization of the middle (channel) loop. -/

/-- Success case of the channel loop: with enough bytes for one whole block,
the loop appends each channel's run onto its slot and advances the running
sample index by the block's total sample count. -/
theorem decodeChannelsLoop_ok (data : List U8) :
    ∀ (chs : List ChannelHeader) (j index : Nat) (result : List (List ℚ)),
      2 * (index + sumCounts chs) ≤ data.length →
      decodeChannelsLoop data chs j index result =
        .ok (multiAppend data chs j index result, index + sumCounts chs) := by
  intro chs
  induction chs with
  | nil =>
    intro j index result _
    simp [decodeChannelsLoop, multiAppend, sumCounts]
  | cons ch rest ih =>
    intro j index result h
    rw [sumCounts_cons] at h
    simp only [decodeChannelsLoop]
    rw [decodeChannelLoop_ok data ch j ch.number_of_samples_in_data_record index result (by omega)]
    show decodeChannelsLoop data rest (j + 1) (index + ch.number_of_samples_in_data_record)
      (appendAt result j (runVals data ch index ch.number_of_samples_in_data_record)) = _
    rw [ih (j + 1) (index + ch.number_of_samples_in_data_record) _ (by omega)]
    simp only [multiAppend, sumCounts_cons]
    rw [Nat.add_assoc]

/-- Failure case of the channel loop: when the buffer ends inside the block,
the loop fails at sample `data.length / 2`. -/
theorem decodeChannelsLoop_err (data : List U8) :
    ∀ (chs : List ChannelHeader) (j index : Nat) (result : List (List ℚ)),
      2 * index ≤ data.length → data.length < 2 * (index + sumCounts chs) →
      decodeChannelsLoop data chs j index result =
        .error (.unexpectedEof (data.length / 2) (2 * (data.length / 2) + 2) data.length) := by
  intro chs
  induction chs with
  | nil =>
    intro j index result h1 h2
    rw [sumCounts] at h2
    omega
  | cons ch rest ih =>
    intro j index result h1 h2
    rw [sumCounts_cons] at h2
    rcases Nat.lt_or_ge data.length (2 * (index + ch.number_of_samples_in_data_record)) with hlt | hge
    · simp only [decodeChannelsLoop]
      rw [decodeChannelLoop_err data ch j ch.number_of_samples_in_data_record index result h1 hlt]
    · simp only [decodeChannelsLoop]
      rw [decodeChannelLoop_ok data ch j ch.number_of_samples_in_data_record index result hge]
      exact ih (j + 1) _ _ (by omega) (by omega)

/-! Lemmas about `multiAppend`. -/

theorem length_multiAppend (data : List U8) :
    ∀ (chs : List ChannelHeader) (j index : Nat) (result : List (List ℚ)),
      (multiAppend data chs j index result).length = result.length := by
  intro chs
  induction chs with
  | nil => intro j index result; rfl
  | cons ch rest ih =>
    intro j index result
    simp only [multiAppend]
    rw [ih, length_appendAt]

/-- Result slots before `j` are untouched by a block pass starting at `j`. -/
theorem getD_multiAppend_lt (data : List U8) :
    ∀ (chs : List ChannelHeader) (j index : Nat) (result : List (List ℚ)) (i : Nat),
      i < j → (multiAppend data chs j index result).getD i [] = result.getD i [] := by
  intro chs
  induction chs with
  | nil => intro j index result i _; rfl
  | cons ch rest ih =>
    intro j index result i hi
    simp only [multiAppend]
    rw [ih (j + 1) _ _ i (by omega), getD_appendAt_ne _ _ _ _ (by omega)]

/-- Effect of one block pass on slot `i` (for `j ≤ i < j + chs.length`):
the run of channel `i - j`, starting `prefixCounts chs (i - j)` samples
into the block, is appended. -/
theorem getD_multiAppend_touch (data : List U8) :
    ∀ (chs : List ChannelHeader) (j index : Nat) (result : List (List ℚ)) (i : Nat),
      j ≤ i → i < j + chs.length → i < result.length →
      (multiAppend data chs j index result).getD i [] =
        result.getD i [] ++
          runVals data (chs.getD (i - j) defaultChannel)
            (index + prefixCounts chs (i - j))
            (chs.getD (i - j) defaultChannel).number_of_samples_in_data_record := by
  intro chs
  induction chs with
  | nil =>
    intro j index result i h1 h2 _
    simp at h2
    omega
  | cons ch rest ih =>
    intro j index result i h1 h2 h3
    by_cases heq : i = j
    · subst heq
      simp only [multiAppend]
      rw [getD_multiAppend_lt data rest (i + 1) _ _ i (by omega)]
      rw [getD_appendAt_self _ _ _ h3]
      simp [Nat.sub_self, prefixCounts_zero]
    · have hgt : j < i := by omega
      have hsub : i - j = (i - (j + 1)) + 1 := by omega
      simp only [multiAppend]
      rw [ih (j + 1) (index + ch.number_of_samples_in_data_record) _ i (by omega)
        (by simp only [List.length_cons] at h2; omega)
        (by rw [length_appendAt]; exact h3)]
      rw [getD_appendAt_ne _ _ _ _ (by omega)]
      rw [hsub]
      simp only [List.getD_cons_succ, prefixCounts_cons_succ]
      congr 2
      omega

/-! Characterization of the outer (block) loop. -/

/-- Success case of the block loop. -/
theorem decodeBlocksLoop_ok (data : List U8) (chs : List ChannelHeader) :
    ∀ (blocks index : Nat) (result : List (List ℚ)),
      2 * (index + blocks * sumCounts chs) ≤ data.length →
      decodeBlocksLoop data chs blocks index result =
        .ok (blocksAppend data chs blocks index result, index + blocks * sumCounts chs) := by
  intro blocks
  induction blocks with
  | zero =>
    intro index result _
    simp [decodeBlocksLoop, blocksAppend]
  | succ b ih =>
    intro index result h
    have hS : (b + 1) * sumCounts chs = b * sumCounts chs + sumCounts chs := by ring
    simp only [decodeBlocksLoop]
    rw [decodeChannelsLoop_ok data chs 0 index result (by omega)]
    show decodeBlocksLoop data chs b (index + sumCounts chs)
      (multiAppend data chs 0 index result) = _
    rw [ih (index + sumCounts chs) _ (by omega)]
    simp only [blocksAppend]
    congr 2
    omega

/-- Failure case of the block loop: with fewer bytes than the decode plan
requires, it fails at sample `data.length / 2`. -/
theorem decodeBlocksLoop_err (data : List U8) (chs : List ChannelHeader) :
    ∀ (blocks index : Nat) (result : List (List ℚ)),
      2 * index ≤ data.length → data.length < 2 * (index + blocks * sumCounts chs) →
      decodeBlocksLoop data chs blocks index result =
        .error (.unexpectedEof (data.length / 2) (2 * (data.length / 2) + 2) data.length) := by
  intro blocks
  induction blocks with
  | zero =>
    intro index result h1 h2
    rw [Nat.zero_mul] at h2
    omega
  | succ b ih =>
    intro index result h1 h2
    have hS : (b + 1) * sumCounts chs = b * sumCounts chs + sumCounts chs := by ring
    rcases Nat.lt_or_ge data.length (2 * (index + sumCounts chs)) with hlt | hge
    · simp only [decodeBlocksLoop]
      rw [decodeChannelsLoop_err data chs 0 index result h1 hlt]
    · simp only [decodeBlocksLoop]
      rw [decodeChannelsLoop_ok data chs 0 index result hge]
      exact ih (index + sumCounts chs) _ (by omega) (by omega)

/-! Lemmas about `blocksAppend` and `chanRun`. -/

theorem length_blocksAppend (data : List U8) (chs : List ChannelHeader) :
    ∀ (blocks index : Nat) (result : List (List ℚ)),
      (blocksAppend data chs blocks index result).length = result.length := by
  intro blocks
  induction blocks with
  | zero => intro index result; rfl
  | succ b ih =>
    intro index result
    simp only [blocksAppend]
    rw [ih, length_multiAppend]

/-- Contents of slot `i` after `blocks` block passes: the channel's per-block
runs, consecutive blocks one whole block (`sumCounts chs` samples) apart. -/
theorem getD_blocksAppend (data : List U8) (chs : List ChannelHeader) :
    ∀ (blocks index : Nat) (result : List (List ℚ)) (i : Nat),
      i < chs.length → i < result.length →
      (blocksAppend data chs blocks index result).getD i [] =
        result.getD i [] ++
          chanRun data (chs.getD i defaultChannel) (sumCounts chs)
            (index + prefixCounts chs i) blocks := by
  intro blocks
  induction blocks with
  | zero =>
    intro index result i _ _
    simp [blocksAppend, chanRun]
  | succ b ih =>
    intro index result i h1 h2
    simp only [blocksAppend]
    rw [ih (index + sumCounts chs) _ i h1 (by rw [length_multiAppend]; exact h2)]
    rw [getD_multiAppend_touch data chs 0 index result i (Nat.zero_le i) (by omega) h2]
    rw [Nat.sub_zero, List.append_assoc]
    have harg : index + sumCounts chs + prefixCounts chs i =
        index + prefixCounts chs i + sumCounts chs := by omega
    rw [harg]
    simp only [chanRun]

theorem length_chanRun (data : List U8) (ch : ChannelHeader) (stride : Nat) :
    ∀ (blocks start : Nat),
      (chanRun data ch stride start blocks).length =
        blocks * ch.number_of_samples_in_data_record := by
  intro blocks
  induction blocks with
  | zero => intro start; simp [chanRun]
  | succ b ih =>
    intro start
    have hS : (b + 1) * ch.number_of_samples_in_data_record =
        b * ch.number_of_samples_in_data_record + ch.number_of_samples_in_data_record := by
      ring
    simp only [chanRun, List.length_append, length_runVals, ih]
    omega

/-- Value at in-channel position `b * count + k` of a channel's full run:
the converted sample `b * stride + k` positions past `start`. -/
theorem getD_chanRun (data : List U8) (ch : ChannelHeader) (stride : Nat) :
    ∀ (blocks start b k : Nat), b < blocks → k < ch.number_of_samples_in_data_record →
      (chanRun data ch stride start blocks).getD
          (b * ch.number_of_samples_in_data_record + k) 0 =
        physicalValue ch (dig data (start + b * stride + k)) := by
  intro blocks
  induction blocks with
  | zero => intro start b k hb _; omega
  | succ bl ih =>
    intro start b k hb hk
    cases b with
    | zero =>
      simp only [chanRun, Nat.zero_mul, Nat.zero_add]
      rw [List.getD_append _ _ _ _ (by rw [length_runVals]; omega)]
      exact getD_runVals data ch _ start k hk
    | succ b2 =>
      have hc : (b2 + 1) * ch.number_of_samples_in_data_record =
          b2 * ch.number_of_samples_in_data_record + ch.number_of_samples_in_data_record := by
        ring
      simp only [chanRun]
      rw [List.getD_append_right _ _ _ _ (by rw [length_runVals]; omega)]
      rw [length_runVals]
      have hpos : (b2 + 1) * ch.number_of_samples_in_data_record + k -
          ch.number_of_samples_in_data_record =
          b2 * ch.number_of_samples_in_data_record + k := by omega
      rw [hpos, ih (start + stride) b2 k (by omega) hk]
      have hst : (b2 + 1) * stride = b2 * stride + stride := by ring
      congr 2
      omega
/-! Top-level characterization of the decoding step. -/

/-- Success of the decoding step when the buffer holds at least the planned
`2 × blocks × sumCounts` bytes. -/
theorem decodeData_of_le (data : List U8) (h : EDFHeader) (blocks : Nat)
    (hlen : 2 * (blocks * sumCounts h.channels) ≤ data.length) :
    decodeData data h blocks =
      .ok (blocksAppend data h.channels blocks 0 (List.replicate h.number_of_signals [])) := by
  unfold decodeData
  rw [decodeBlocksLoop_ok data h.channels blocks 0 _ (by omega)]

/-- Failure of the decoding step when the buffer is shorter than the planned
byte count: the error is raised at sample `data.length / 2`, the first
sample whose two bytes are not fully contained in the buffer. -/
theorem decodeData_of_gt (data : List U8) (h : EDFHeader) (blocks : Nat)
    (hlen : data.length < 2 * (blocks * sumCounts h.channels)) :
    decodeData data h blocks =
      .error (.unexpectedEof (data.length / 2) (2 * (data.length / 2) + 2) data.length) := by
  unfold decodeData
  rw [decodeBlocksLoop_err data h.channels blocks 0 _ (by omega) (by omega)]

/-- Inversion: a successful decode implies the buffer was long enough, and
pins down the result. -/
theorem decodeData_ok_inv (data : List U8) (h : EDFHeader) (blocks : Nat)
    (res : List (List ℚ)) (hok : decodeData data h blocks = .ok res) :
    2 * (blocks * sumCounts h.channels) ≤ data.length ∧
      res = blocksAppend data h.channels blocks 0 (List.replicate h.number_of_signals []) := by
  rcases Nat.lt_or_ge data.length (2 * (blocks * sumCounts h.channels)) with hlt | hge
  · rw [decodeData_of_gt data h blocks hlt] at hok
    exact absurd hok (by simp)
  · rw [decodeData_of_le data h blocks hge] at hok
    exact ⟨hge, (Except.ok.inj hok).symm⟩

theorem getD_replicate_nil (n j : Nat) :
    (List.replicate n ([] : List ℚ)).getD j [] = [] := by
  induction n generalizing j with
  | zero => rfl
  | succ m ih =>
    cases j with
    | zero => rfl
    | succ i => exact ih i

/-- Outer length of any successful decode result. -/
theorem decodeData_length (data : List U8) (h : EDFHeader) (blocks : Nat)
    (res : List (List ℚ)) (hok : decodeData data h blocks = .ok res) :
    res.length = h.number_of_signals := by
  obtain ⟨-, rfl⟩ := decodeData_ok_inv data h blocks res hok
  rw [length_blocksAppend, List.length_replicate]

/-- Per-channel contents of any successful decode result (assuming the
construction invariant `number_of_signals = channels.len`). -/
theorem decodeData_getD (data : List U8) (h : EDFHeader) (blocks : Nat)
    (res : List (List ℚ)) (hinv : h.number_of_signals = h.channels.length)
    (hok : decodeData data h blocks = .ok res) (j : Nat) (hj : j < h.channels.length) :
    res.getD j [] =
      chanRun data (h.channels.getD j defaultChannel) (sumCounts h.channels)
        (prefixCounts h.channels j) blocks := by
  obtain ⟨-, rfl⟩ := decodeData_ok_inv data h blocks res hok
  rw [getD_blocksAppend data h.channels blocks 0 _ j hj
    (by rw [List.length_replicate]; omega)]
  rw [getD_replicate_nil]
  simp

/-- The slice-to-array conversion branch of `get_sample` is unreachable:
once the explicit bounds check has passed, the two-byte slice always has
exactly two elements. -/
theorem get_sample_ne_invalidData (data : List U8) (index : Nat) :
    get_sample data index ≠ .error .invalidData := by
  unfold get_sample
  by_cases hc : 2 * index + 2 > data.length
  · rw [if_pos hc]
    simp
  · rw [if_neg hc]
    have hlen : ((data.drop (2 * index)).take 2).length = 2 := by
      rw [List.length_take, List.length_drop]
      omega
    obtain ⟨b0, b1, heq⟩ := List.length_eq_two.mp hlen
    rw [heq]
    simp

/-! Claim theorems. -/

/-- C7: `get_sample` on the buffer `[200]` at sample index 0 returns the
truncation (unexpected-end-of-data) error; on `[200, 1]` at index 0 it
returns `Ok 456`; on `[44, 238]` at index 0 it returns `Ok (−4564)`. -/
theorem claim_C7 :
    get_sample [(200 : U8)] 0 = .error (.unexpectedEof 0 2 1) ∧
      get_sample [(200 : U8), 1] 0 = .ok 456 ∧
      get_sample [(44 : U8), 238] 0 = .ok (-4564) :=
  ⟨rfl, rfl, rfl⟩

/-- C9: whenever `2 * index + 2 ≤ data.len`, `get_sample` returns `Ok`
(with the little-endian signed 16-bit value of the two bytes), and the
slice-to-array `InvalidData` branch is unreachable on all inputs, so the
only error `get_sample` ever returns is the unexpected-end-of-data one. -/
theorem claim_C9 (data : List U8) (index : Nat) (h : 2 * index + 2 ≤ data.length) :
    (∃ v : Int, get_sample data index = .ok v) ∧
      ∀ (d : List U8) (i : Nat), get_sample d i ≠ .error .invalidData :=
  ⟨⟨dig data index, get_sample_of_le data index h⟩,
    fun d i => get_sample_ne_invalidData d i⟩

/-- Witness for C9 at the concrete buffer `[200, 1]` and index 0. -/
theorem claim_C9_witness :
    (∃ v : Int, get_sample [(200 : U8), 1] 0 = .ok v) ∧
      ∀ (d : List U8) (i : Nat), get_sample d i ≠ .error .invalidData :=
  claim_C9 [(200 : U8), 1] 0 (by decide)

/-- C3 (counterexample): at `start_time_ms = 2^64 − 1`, `duration_ms = 2`
and a recording whose length is `block_duration × number_of_blocks = 1`,
the mathematical sum exceeds the bound yet `check_bounds` returns `Ok`,
because the wrapped `u64` sum is 1.  This refutes the claim as stated
(error exactly when the mathematical sum exceeds the bound). -/
theorem claim_C3_counterexample :
    check_bounds (2 ^ 64 - 1) 2 hdrO = .ok () ∧
      2 ^ 64 - 1 + 2 > hdrO.block_duration * hdrO.number_of_blocks :=
  ⟨rfl, by decide⟩

/-- C3 (amended): provided neither `start_time_ms + duration_ms` nor
`block_duration × number_of_blocks` overflows `u64`, `check_bounds` errors
exactly when the sum exceeds the product, and returns `Ok` at the exact
boundary (equality). -/
theorem claim_C3 (start_time duration : Nat) (h : EDFHeader)
    (hs : start_time + duration < U64MOD)
    (hp : h.block_duration * h.number_of_blocks < U64MOD) :
    (check_bounds start_time duration h = .error .invalidInput ↔
        start_time + duration > h.block_duration * h.number_of_blocks) ∧
      (start_time + duration = h.block_duration * h.number_of_blocks →
        check_bounds start_time duration h = .ok ()) := by
  unfold check_bounds
  rw [Nat.mod_eq_of_lt hs, Nat.mod_eq_of_lt hp]
  by_cases hgt : start_time + duration > h.block_duration * h.number_of_blocks
  · rw [if_pos hgt]
    refine ⟨⟨fun _ => hgt, fun _ => rfl⟩, fun heq => ?_⟩
    omega
  · rw [if_neg hgt]
    refine ⟨⟨fun he => ?_, fun hg => absurd hg hgt⟩, fun _ => rfl⟩
    cases he

/-- Witness for the amended C3 at `start = 9000`, `duration = 1000` against
`hdrW` (recording length 10000 ms): the exact boundary, which is `Ok`. -/
theorem claim_C3_witness :
    (check_bounds 9000 1000 hdrW = .error .invalidInput ↔
        9000 + 1000 > hdrW.block_duration * hdrW.number_of_blocks) ∧
      (9000 + 1000 = hdrW.block_duration * hdrW.number_of_blocks →
        check_bounds 9000 1000 hdrW = .ok ()) :=
  claim_C3 9000 1000 hdrW (by decide) (by decide)

/-- C8: `check_bounds` has no overflow guard: under wrap-around `u64`
semantics there are `start_time_ms` and `duration_ms` (both valid `u64`
values) whose mathematical sum exceeds `block_duration × number_of_blocks`
yet `check_bounds` returns `Ok`, because the wrapped sum does not exceed
the bound. -/
theorem claim_C8 :
    ∃ (start_time duration : Nat) (h : EDFHeader),
      start_time < U64MOD ∧ duration < U64MOD ∧
        start_time + duration > h.block_duration * h.number_of_blocks ∧
        check_bounds start_time duration h = .ok () := by
  refine ⟨2 ^ 64 - 1, 1, hdrO, by decide, by decide, by decide, ?_⟩
  decide

/-- C4: with `block_duration > 0`, `first_block_index` is the floor of
`start_time_ms / block_duration` (so a start time exactly on a block
boundary `m × block_duration` yields index `m`, floor not ceiling), the
data read is issued at byte offset
`byte_size_header + first_block_index × data_record_byte_size`, and for
`start_time_ms = 0` the read starts at `byte_size_header`.  The last
conjunct records that, once the bounds check passes, `read_data_window`
passes exactly this offset (and the planned length) to the byte source. -/
theorem claim_C4 (h : EDFHeader) (start_time : Nat) (hbd : 0 < h.block_duration) :
    firstBlockIndex start_time h.block_duration = start_time / h.block_duration ∧
      (∀ m : Nat, start_time = m * h.block_duration →
        firstBlockIndex start_time h.block_duration = m) ∧
      readOffset h start_time =
        h.byte_size_header + start_time / h.block_duration * h.get_size_of_data_block ∧
      readOffset h 0 = h.byte_size_header ∧
      (∀ (f : Nat → Nat → List U8) (duration : Nat),
        check_bounds start_time duration h = .ok () →
        read_data_window h f start_time duration =
          decodeData (f (readOffset h start_time) (lengthToRead h duration)) h
            (numberOfBlocksToGet duration h.block_duration)) := by
  have hsub : start_time - start_time % h.block_duration =
      h.block_duration * (start_time / h.block_duration) := by
    have := Nat.div_add_mod start_time h.block_duration
    omega
  have hfbi : firstBlockIndex start_time h.block_duration =
      start_time / h.block_duration := by
    unfold firstBlockIndex
    rw [hsub, Nat.mul_div_cancel_left _ hbd]
  refine ⟨hfbi, ?_, ?_, ?_, ?_⟩
  · intro m hm
    rw [hfbi, hm, Nat.mul_div_cancel _ hbd]
  · unfold readOffset
    rw [hfbi]
  · have h0 : firstBlockIndex 0 h.block_duration = 0 := by
      unfold firstBlockIndex
      simp
    unfold readOffset
    rw [h0, Nat.zero_mul, Nat.add_zero]
  · intro f duration hcb
    unfold read_data_window
    rw [hcb]

/-- Witness for C4 against `hdrW` (`block_duration = 1000`) at
`start_time_ms = 2500`. -/
theorem claim_C4_witness :
    firstBlockIndex 2500 hdrW.block_duration = 2500 / hdrW.block_duration ∧
      (∀ m : Nat, 2500 = m * hdrW.block_duration →
        firstBlockIndex 2500 hdrW.block_duration = m) ∧
      readOffset hdrW 2500 =
        hdrW.byte_size_header + 2500 / hdrW.block_duration * hdrW.get_size_of_data_block ∧
      readOffset hdrW 0 = hdrW.byte_size_header ∧
      (∀ (f : Nat → Nat → List U8) (duration : Nat),
        check_bounds 2500 duration hdrW = .ok () →
        read_data_window hdrW f 2500 duration =
          decodeData (f (readOffset hdrW 2500) (lengthToRead hdrW duration)) hdrW
            (numberOfBlocksToGet duration hdrW.block_duration)) :=
  claim_C4 hdrW 2500 (by decide)

/-- C5: with `block_duration > 0`, the number of blocks decoded is the
exact integer ceiling of `duration_ms / block_duration` (characterized as
the least block count whose span covers the duration), the byte length
requested from the byte source is that block count times
`data_record_byte_size`, and a request of exactly one block duration
yields exactly one block.  The source computes the ceiling through `f64`
division; the embedding is exact ceiling division, which agrees with the
`f64` computation for operands below `2 ^ 53` — the hypotheses record
that validity domain. -/
theorem claim_C5 (h : EDFHeader) (duration : Nat) (hbd : 0 < h.block_duration)
    (hd53 : duration < 2 ^ 53) (hb53 : h.block_duration < 2 ^ 53) :
    (duration ≤ numberOfBlocksToGet duration h.block_duration * h.block_duration ∧
      numberOfBlocksToGet duration h.block_duration * h.block_duration <
        duration + h.block_duration) ∧
      lengthToRead h duration =
        numberOfBlocksToGet duration h.block_duration * h.get_size_of_data_block ∧
      numberOfBlocksToGet h.block_duration h.block_duration = 1 := by
  refine ⟨?_, rfl, ?_⟩
  · have hdm := Nat.div_add_mod (duration + h.block_duration - 1) h.block_duration
    have hr : (duration + h.block_duration - 1) % h.block_duration < h.block_duration :=
      Nat.mod_lt _ hbd
    have hcomm : (duration + h.block_duration - 1) / h.block_duration * h.block_duration =
        h.block_duration * ((duration + h.block_duration - 1) / h.block_duration) :=
      Nat.mul_comm _ _
    unfold numberOfBlocksToGet
    omega
  · unfold numberOfBlocksToGet
    have he : h.block_duration + h.block_duration - 1 =
        h.block_duration - 1 + h.block_duration := by omega
    rw [he, Nat.add_div_right _ hbd, Nat.div_eq_of_lt (by omega)]

/-- Witness for C5 against `hdrW` (`block_duration = 1000`) at
`duration_ms = 2500` (ceiling is 3 blocks). -/
theorem claim_C5_witness :
    (2500 ≤ numberOfBlocksToGet 2500 hdrW.block_duration * hdrW.block_duration ∧
      numberOfBlocksToGet 2500 hdrW.block_duration * hdrW.block_duration <
        2500 + hdrW.block_duration) ∧
      lengthToRead hdrW 2500 =
        numberOfBlocksToGet 2500 hdrW.block_duration * hdrW.get_size_of_data_block ∧
      numberOfBlocksToGet hdrW.block_duration hdrW.block_duration = 1 :=
  claim_C5 hdrW 2500 (by decide) (by decide) (by decide)

/-- C10: with `block_duration > 0` and an in-bounds `start_time_ms`
(`check_bounds` passes), a call with `duration_ms = 0` plans zero blocks,
requests a zero-length byte read, and returns exactly
`number_of_signals` empty per-channel sequences, regardless of the bytes
the byte source returns. -/
theorem claim_C10 (h : EDFHeader) (f : Nat → Nat → List U8) (start_time : Nat)
    (hbd : 0 < h.block_duration) (hcb : check_bounds start_time 0 h = .ok ()) :
    numberOfBlocksToGet 0 h.block_duration = 0 ∧
      lengthToRead h 0 = 0 ∧
      read_data_window h f start_time 0 = .ok (List.replicate h.number_of_signals []) := by
  have hz : numberOfBlocksToGet 0 h.block_duration = 0 := by
    unfold numberOfBlocksToGet
    rw [Nat.zero_add]
    exact Nat.div_eq_of_lt (by omega)
  refine ⟨hz, ?_, ?_⟩
  · unfold lengthToRead
    rw [hz, Nat.zero_mul]
  · unfold read_data_window
    rw [hcb]
    show decodeData (f (readOffset h start_time) (lengthToRead h 0)) h
      (numberOfBlocksToGet 0 h.block_duration) = _
    rw [hz]
    rfl

/-- Witness for C10 against `hdrW` at `start_time_ms = 500`, with a byte
source that returns junk bytes. -/
theorem claim_C10_witness :
    numberOfBlocksToGet 0 hdrW.block_duration = 0 ∧
      lengthToRead hdrW 0 = 0 ∧
      read_data_window hdrW (fun _ _ => dataW) 500 0 =
        .ok (List.replicate hdrW.number_of_signals []) :=
  claim_C10 hdrW (fun _ _ => dataW) 500 (by decide) (by decide)

/-- C1: for every decodable buffer, block index `b < blocks`, channel `j`
(header order) and sample index `k < samples_per_record(j)`, the value the
decoder placed at in-channel position `b × samples_per_record(j) + k` is
obtained from the two little-endian bytes at the interleaved sample
position `b × Σ counts + (Σ of counts before j) + k` (2 bytes per sample
from buffer offset 0), read as a signed 16-bit integer `d`, and equals
`(d − digital_minimum) × scale_factor + physical_minimum`. -/
theorem claim_C1 (data : List U8) (h : EDFHeader) (blocks : Nat) (res : List (List ℚ))
    (hinv : h.number_of_signals = h.channels.length)
    (hok : decodeData data h blocks = .ok res)
    (b j k : Nat) (hb : b < blocks) (hj : j < h.channels.length)
    (hk : k < (h.channels.getD j defaultChannel).number_of_samples_in_data_record) :
    (res.getD j []).getD
        (b * (h.channels.getD j defaultChannel).number_of_samples_in_data_record + k) 0 =
      physicalValue (h.channels.getD j defaultChannel)
        (i16FromLeBytes
          (data.getD (2 * (b * sumCounts h.channels + prefixCounts h.channels j + k)) 0)
          (data.getD (2 * (b * sumCounts h.channels + prefixCounts h.channels j + k) + 1) 0)) := by
  rw [decodeData_getD data h blocks res hinv hok j hj]
  rw [getD_chanRun data (h.channels.getD j defaultChannel) (sumCounts h.channels) blocks
    (prefixCounts h.channels j) b k hb hk]
  have harg : prefixCounts h.channels j + b * sumCounts h.channels + k =
      b * sumCounts h.channels + prefixCounts h.channels j + k := by omega
  rw [harg]
  rfl

/-- Witness for C1: one block of `dataW` decoded against `hdrW`; the value
of channel 1 (the two-sample channel), block 0, sample 0 sits at sample
position 1, bytes 2 and 3. -/
theorem claim_C1_witness :
    (([[(456 : ℚ)], [-4564, 2]] : List (List ℚ)).getD 1 []).getD 0 0 =
      physicalValue chW2 (i16FromLeBytes (dataW.getD 2 0) (dataW.getD 3 0)) := by
  have hok : decodeData dataW hdrW 1 = .ok [[(456 : ℚ)], [-4564, 2]] := by
    simp [decodeData, decodeBlocksLoop, decodeChannelsLoop, decodeChannelLoop, get_sample,
      pushSample, physicalValue, hdrW, chW1, chW2, dataW,
      (by decide : i16FromLeBytes 200 1 = 456),
      (by decide : i16FromLeBytes 44 238 = -4564),
      (by decide : i16FromLeBytes 2 0 = 2)]
  exact claim_C1 dataW hdrW 1 [[(456 : ℚ)], [-4564, 2]] rfl hok 0 1 0
    (by decide) (by decide) (by decide)

/-- C2: every `read_data_window` call that completes without error returns
`number_of_signals` per-channel sequences, the `j`-th (header order)
having length `blocks_to_read × samples_per_record(j)`; per-channel
lengths are governed independently by each channel's own count. -/
theorem claim_C2 (h : EDFHeader) (f : Nat → Nat → List U8) (start_time duration : Nat)
    (res : List (List ℚ)) (hinv : h.number_of_signals = h.channels.length)
    (hok : read_data_window h f start_time duration = .ok res) :
    res.length = h.number_of_signals ∧
      ∀ j, j < h.channels.length →
        (res.getD j []).length =
          numberOfBlocksToGet duration h.block_duration *
            (h.channels.getD j defaultChannel).number_of_samples_in_data_record := by
  unfold read_data_window at hok
  cases hcb : check_bounds start_time duration h with
  | error e =>
    rw [hcb] at hok
    exact absurd (hok : Except.error e = .ok res) (by simp)
  | ok u =>
    rw [hcb] at hok
    replace hok : decodeData (f (readOffset h start_time) (lengthToRead h duration)) h
        (numberOfBlocksToGet duration h.block_duration) = .ok res := hok
    refine ⟨decodeData_length _ h _ res hok, fun j hj => ?_⟩
    rw [decodeData_getD _ h _ res hinv hok j hj, length_chanRun]

/-- Witness for C2: `hdrW` has two channels with differing per-record
counts (1 and 2); a one-block window preserves both lengths independently
and in header order. -/
theorem claim_C2_witness :
    ([[(456 : ℚ)], [-4564, 2]] : List (List ℚ)).length = hdrW.number_of_signals ∧
      (([[(456 : ℚ)], [-4564, 2]] : List (List ℚ)).getD 0 []).length = 1 * 1 ∧
      (([[(456 : ℚ)], [-4564, 2]] : List (List ℚ)).getD 1 []).length = 1 * 2 := by
  have hok : read_data_window hdrW (fun _ _ => dataW) 0 1000 = .ok [[(456 : ℚ)], [-4564, 2]] := by
    simp [read_data_window, check_bounds, U64MOD, numberOfBlocksToGet, lengthToRead,
      readOffset, firstBlockIndex, EDFHeader.get_size_of_data_block, sumCounts,
      decodeData, decodeBlocksLoop, decodeChannelsLoop, decodeChannelLoop, get_sample,
      pushSample, physicalValue, hdrW, chW1, chW2, dataW,
      (by decide : i16FromLeBytes 200 1 = 456),
      (by decide : i16FromLeBytes 44 238 = -4564),
      (by decide : i16FromLeBytes 2 0 = 2)]
  obtain ⟨h1, h2⟩ := claim_C2 hdrW (fun _ _ => dataW) 0 1000 [[(456 : ℚ)], [-4564, 2]] rfl hok
  exact ⟨h1, h2 0 (by decide), h2 1 (by decide)⟩

/-- C6: a buffer shorter than 2 × blocks × Σ samples_per_record makes the
decoding step fail with the truncation error; the failure is raised at the
first sample whose two bytes are not fully contained (sample
`data.len / 2`: every earlier sample is fully contained, and that one is
not), and the error carries the sample index, the byte index one past the
two needed bytes, and the buffer length, locating the truncation. -/
theorem claim_C6 (data : List U8) (h : EDFHeader) (blocks : Nat)
    (hshort : data.length < 2 * (blocks * sumCounts h.channels)) :
    decodeData data h blocks =
      .error (.unexpectedEof (data.length / 2) (2 * (data.length / 2) + 2) data.length) ∧
      data.length < 2 * (data.length / 2) + 2 ∧
      (∀ i : Nat, i < data.length / 2 → 2 * i + 2 ≤ data.length) :=
  ⟨decodeData_of_gt data h blocks hshort, by omega, fun i hi => by omega⟩

/-- Witness for C6: decoding one block of `hdrW` (6 bytes needed) from a
1-byte buffer fails at sample 0 with the unexpected-end-of-data error. -/
theorem claim_C6_witness :
    decodeData [(200 : U8)] hdrW 1 = .error (.unexpectedEof 0 2 1) ∧
      (1 : Nat) < 2 * 0 + 2 ∧
      (∀ i : Nat, i < 0 → 2 * i + 2 ≤ 1) :=
  claim_C6 [(200 : U8)] hdrW 1 (by decide)
